import Mathlib

/-!
# Verification of the horizons-aggregator core pipeline

Shallow embedding of the job-aggregation core: the identity resolver and
snapshot store helpers (`src/utils.py`), the orchestrator (`src/run_scrapers.py`),
and the pure record-construction parts of the source adapters
(`src/scrapers/yhmc_board.py`, `src/scrapers/austin_hose_scraper.py`,
`src/scrapers/anb_board.py`).

Conventions of the embedding:
* Python `str` is Lean `String`; byte strings are `List Nat` (each < 256).
* Python dicts are insertion-ordered association lists.
* Machine words of the SHA-1 computation are `Nat` reduced modulo `2^32`.
* Code that can raise is modelled in `Except String`.
* External collaborators (HTTP fetching, BeautifulSoup HTML parsing, regex
  extraction, `json.loads`, the filesystem) are modelled as inputs: an adapter's
  embedding consumes already-extracted card/item data, and the store's embedding
  consumes the parse outcome of the persisted file.
-/

namespace utils

/-- Reduce to a 32-bit word, as Python's `hashlib` arithmetic does internally. -/
def w32 (n : Nat) : Nat := n % 4294967296

/-- Rotate a 32-bit word left by `b` bits (operand assumed < 2^32). -/
def rotl (b n : Nat) : Nat := ((n * 2 ^ b) % 4294967296) ||| (n / 2 ^ (32 - b))

/-- UTF-8 encoding of one character, as Python's `str.encode()` produces. -/
def utf8Char (c : Char) : List Nat :=
  let n := c.toNat
  if n < 128 then [n]
  else if n < 2048 then [192 + n / 64, 128 + n % 64]
  else if n < 65536 then [224 + n / 4096, 128 + (n / 64) % 64, 128 + n % 64]
  else [240 + n / 262144, 128 + (n / 4096) % 64, 128 + (n / 64) % 64, 128 + n % 64]

/-- UTF-8 encoding of a string (`str.encode()`). -/
def utf8 (s : String) : List Nat := (s.data.map utf8Char).flatten

/-- Big-endian byte expansion of `n` on `k` bytes. -/
def beBytes (k : Nat) (n : Nat) : List Nat :=
  (List.range k).map (fun i => (n / 2 ^ (8 * (k - 1 - i))) % 256)

/-- SHA-1 padding: append `0x80`, zero bytes up to 56 mod 64, then the
64-bit big-endian bit length. -/
def sha1pad (msg : List Nat) : List Nat :=
  let l := msg.length
  let k := (120 - (l + 1) % 64) % 64
  msg ++ [128] ++ List.replicate k 0 ++ beBytes 8 (8 * l)

/-- The `i`-th big-endian 32-bit word of a 64-byte block. -/
def word (blk : List Nat) (i : Nat) : Nat :=
  blk.getD (4 * i) 0 * 16777216 + blk.getD (4 * i + 1) 0 * 65536 +
    blk.getD (4 * i + 2) 0 * 256 + blk.getD (4 * i + 3) 0

/-- The first 16 schedule words of a block. -/
def initW (blk : List Nat) : List Nat := (List.range 16).map (word blk)

/-- Message-schedule extension from 16 to 80 words. -/
def extendW (ws : List Nat) : List Nat :=
  (List.range 64).foldl
    (fun a _ =>
      let j := a.length
      a ++ [rotl 1 (((a.getD (j - 3) 0) ^^^ (a.getD (j - 8) 0)) ^^^
        ((a.getD (j - 14) 0) ^^^ (a.getD (j - 16) 0)))])
    ws

/-- Round function and constant for round `i`. -/
def fK (i b c d : Nat) : Nat × Nat :=
  if i < 20 then ((b &&& c) ||| ((4294967295 ^^^ b) &&& d), 1518500249)
  else if i < 40 then ((b ^^^ c) ^^^ d, 1859775393)
  else if i < 60 then (((b &&& c) ||| (b &&& d)) ||| (c &&& d), 2400959708)
  else ((b ^^^ c) ^^^ d, 3395469782)

/-- One SHA-1 round on the five-word state. -/
def roundStep (st : Nat × Nat × Nat × Nat × Nat) (iw : Nat × Nat) :
    Nat × Nat × Nat × Nat × Nat :=
  let (a, b, c, d, e) := st
  let (i, w) := iw
  let (f, k) := fK i b c d
  (w32 (rotl 5 a + f + e + k + w), a, rotl 30 b, c, d)

/-- Compress one 64-byte block into the running hash state. -/
def processBlock (h : Nat × Nat × Nat × Nat × Nat) (blk : List Nat) :
    Nat × Nat × Nat × Nat × Nat :=
  let ws := extendW (initW blk)
  let (h0, h1, h2, h3, h4) := h
  let (a, b, c, d, e) := ((List.range 80).zip ws).foldl roundStep (h0, h1, h2, h3, h4)
  (w32 (h0 + a), w32 (h1 + b), w32 (h2 + c), w32 (h3 + d), w32 (h4 + e))

/-- SHA-1 of a byte string, as the five 32-bit state words. -/
def sha1Nat (msg : List Nat) : Nat × Nat × Nat × Nat × Nat :=
  let p := sha1pad msg
  (List.range (p.length / 64)).foldl
    (fun h i => processBlock h ((p.drop (64 * i)).take 64))
    (1732584193, 4023233417, 2562383102, 271733878, 3285377520)

/-- Lowercase hex digit. -/
def hexDigit (n : Nat) : Char := "0123456789abcdef".data.getD n '0'

/-- Eight lowercase hex digits of a 32-bit word. -/
def hex8 (n : Nat) : List Char :=
  (List.range 8).map (fun i => hexDigit ((n / 2 ^ (4 * (7 - i))) % 16))

/-- `hashlib.sha1(msg).hexdigest()`. -/
def sha1hex (msg : List Nat) : String :=
  let (h0, h1, h2, h3, h4) := sha1Nat msg
  String.mk (hex8 h0 ++ hex8 h1 ++ hex8 h2 ++ hex8 h3 ++ hex8 h4)

/-- The key string `f"{title}|{company}|{location}"` hashed by `build_job_id`
(`src/utils.py` line 6). -/
def buildKey (title company location : String) : String :=
  title ++ "|" ++ company ++ "|" ++ location

/-- `utils.build_job_id` (`src/utils.py` lines 5-7): sha1 hex digest of the
pipe-joined `(title, company, location)` tuple, UTF-8 encoded. -/
def build_job_id (title company location : String) : String :=
  sha1hex (utf8 (buildKey title company location))

end utils

/-- Coordinates of an `Except` value in a sum type, giving decidable equality. -/
def exceptToSum {ε α : Type} : Except ε α → ε ⊕ α
  | .error e => .inl e
  | .ok a => .inr a

instance {ε α : Type} [DecidableEq ε] [DecidableEq α] : DecidableEq (Except ε α) :=
  fun a b =>
    decidable_of_iff (exceptToSum a = exceptToSum b)
      (by cases a <;> cases b <;> simp [exceptToSum])

/-- A Python job dict with string values, as every record of the registered
scraper (`scrapers.yhmc_board`) and of the persisted snapshot carries:
an insertion-ordered association list. -/
def Job : Type := List (String × String)

instance : DecidableEq Job := by unfold Job; infer_instance

instance : Membership (String × String) Job := by unfold Job; infer_instance

instance : Append Job := by unfold Job; infer_instance

/-- `d.get(k)` / `d[k]` lookup on a Python dict (first binding of `k`;
a well-formed dict binds each key once). -/
def pyGet {α : Type} (d : List (String × α)) (k : String) : Option α :=
  (d.find? (fun p => p.1 == k)).map Prod.snd

/-- `d[k] = v` on an insertion-ordered dict: overwrite in place when the key
exists, append otherwise. -/
def dictInsert {α : Type} (d : List (String × α)) (k : String) (v : α) :
    List (String × α) :=
  if d.any (fun p => p.1 == k) then d.map (fun p => if p.1 == k then (k, v) else p)
  else d ++ [(k, v)]

/-- The keys of a dict, in insertion order. -/
def dictKeys {α : Type} (d : List (String × α)) : List String := d.map Prod.fst

/-- `d.values()`, in insertion order. -/
def dictValues {α : Type} (d : List (String × α)) : List α := d.map Prod.snd

namespace utils

/-- Left-to-right accumulation of the dict comprehension
`{item["id"]: item for item in items}`: insert each item keyed by its id,
raising `KeyError` when `item["id"]` is absent. -/
def buildDictFrom (d : List (String × Job)) : List Job → Except String (List (String × Job))
  | [] => .ok d
  | item :: items =>
    match pyGet item "id" with
    | some i => buildDictFrom (dictInsert d i item) items
    | none => .error "KeyError: id"

/-- The dict comprehension `{item["id"]: item for item in items}` of
`load_previous` (`src/utils.py` line 11). -/
def buildDict (items : List Job) : Except String (List (String × Job)) :=
  buildDictFrom [] items

/-- `utils.load_previous` (`src/utils.py` lines 9-12). The filesystem and
`json.loads` are external: `fileExists` models `DATA_PATH.exists()` and
`loadsResult` the outcome of `json.loads(DATA_PATH.read_text())` (an
exception from reading or parsing is `.error`). Only the absent-file case
is guarded in the source; a raised exception propagates. -/
def load_previous (fileExists : Bool) (loadsResult : Except String (List Job)) :
    Except String (List (String × Job)) :=
  if fileExists then
    match loadsResult with
    | .ok items => buildDict items
    | .error e => .error e
  else .ok []

end utils

namespace run_scrapers

/-- `job["id"]` as an optional lookup. -/
def idOf (j : Job) : Option String := pyGet j "id"

/-- The fresh-collection loop of `main` (`src/run_scrapers.py` lines 15-20):
append a scraped job unless its id was already seen, starting from the ids of
the previous snapshot; `job["id"]` raises when absent. -/
def dedupLoop (seen : List String) : List Job → Except String (List Job)
  | [] => .ok []
  | j :: js =>
    match idOf j with
    | none => .error "KeyError: id"
    | some i =>
      if seen.contains i then dedupLoop seen js
      else (dedupLoop (i :: seen) js).map (fun rest => j :: rest)

/-- Python's `<` on strings: lexicographic comparison of code points. -/
def charsLt : List Char → List Char → Bool
  | [], [] => false
  | [], _ :: _ => true
  | _ :: _, [] => false
  | c :: cs, d :: ds =>
    if c.toNat < d.toNat then true
    else if d.toNat < c.toNat then false
    else charsLt cs ds

/-- Python's `<` on strings. -/
def strLt (a b : String) : Bool := charsLt a.data b.data

/-- Stable descending insertion: a new element goes before the first strictly
smaller key and after equal keys, which is the order `sorted(..., reverse=True)`
produces (stable, ties keep input order). -/
def insertDesc (x : String × Job) : List (String × Job) → List (String × Job)
  | [] => [x]
  | y :: ys => if strLt y.1 x.1 then x :: y :: ys else y :: insertDesc x ys

/-- Stable descending sort of a keyed list. -/
def sortDesc (l : List (String × Job)) : List (String × Job) :=
  l.foldl (fun acc x => insertDesc x acc) []

/-- Key extraction `lambda j: j["posted"]`, applied to every element (as
CPython's `sorted` does before comparing); a job without `"posted"` raises
`KeyError`. -/
def keyed : List Job → Except String (List (String × Job))
  | [] => .ok []
  | j :: js =>
    match pyGet j "posted" with
    | none => .error "KeyError: posted"
    | some p => (keyed js).map (fun rest => (p, j) :: rest)

/-- `sorted(jobs, key=lambda j: j["posted"], reverse=True)`
(`src/run_scrapers.py` line 24). String keys compare lexicographically by
code point, as in Python. -/
def sortByPosted (jobs : List Job) : Except String (List Job) :=
  (keyed jobs).map (fun kl => (sortDesc kl).map Prod.snd)

/-- `run_scrapers.main` (`src/run_scrapers.py` lines 10-24) as a function from
the parsed content of the persisted snapshot (`prevItems`) and the
concatenation of the registered scrapers' outputs (`scraped`) to the parsed
content of the snapshot file after the run: the list passed to `save_latest`
when `if fresh or not prev` saves, the unchanged previous content otherwise. -/
def mainRun (prevItems : List Job) (scraped : List Job) : Except String (List Job) := do
  let prev ← utils.buildDict prevItems
  let fresh ← dedupLoop (dictKeys prev) scraped
  if fresh ≠ [] ∨ prev = [] then
    sortByPosted (fresh ++ dictValues prev)
  else
    .ok prevItems

end run_scrapers

namespace pystr

/-- Python `str.isspace` characters the sources can carry (ASCII whitespace,
the C0 separators, NEL and NBSP); `str.strip()` removes exactly these. -/
def isPySpace (c : Char) : Bool :=
  [9, 10, 11, 12, 13, 28, 29, 30, 31, 32, 133, 160].contains c.toNat

/-- `str.strip()` on a character list: drop leading and trailing whitespace. -/
def stripChars (l : List Char) : List Char :=
  ((l.dropWhile isPySpace).reverse.dropWhile isPySpace).reverse

/-- Python `str.strip()`. -/
def pyStrip (s : String) : String := String.mk (stripChars s.data)

/-- Case-folding of one character, as Python `str.lower()` acts on the ASCII
range (the only range these sources exercise). -/
def pyLowerChar (c : Char) : Char :=
  if 65 ≤ c.toNat && c.toNat ≤ 90 then Char.ofNat (c.toNat + 32) else c

/-- Python truthiness of an optional string: `None` and `""` are falsy. -/
def pyTruthy : Option String → Bool
  | none => false
  | some s => s != ""

/-- Python `a or b` over optional strings (first truthy operand). -/
def pyOr (a b : Option String) : Option String := if pyTruthy a then a else b

end pystr

namespace anb_board

/-- The character class `[a-z0-9]` that the slug regex keeps. -/
def isSlugKeep (c : Char) : Bool :=
  (97 ≤ c.toNat && c.toNat ≤ 122) || (48 ≤ c.toNat && c.toNat ≤ 57)

/-- Helper for `collapseRuns`: `prevBad` records whether the previous
character was part of a non-kept run (whose hyphen is already emitted). -/
def collapseAux : Bool → List Char → List Char
  | _, [] => []
  | prevBad, c :: cs =>
    if isSlugKeep c then c :: collapseAux false cs
    else if prevBad then collapseAux true cs
    else '-' :: collapseAux true cs

/-- `re.sub(r"[^a-z0-9]+", "-", ·)`: each maximal run of non-kept characters
becomes a single hyphen. -/
def collapseRuns (l : List Char) : List Char := collapseAux false l

/-- `str.strip("-")`. -/
def stripDashes (l : List Char) : List Char :=
  ((l.dropWhile (fun c => c == '-')).reverse.dropWhile (fun c => c == '-')).reverse

/-- `anb_board._slug` (`src/scrapers/anb_board.py` lines 28-30): replace NBSP
with a space, strip, lowercase, collapse non-alphanumeric runs to single
hyphens, strip outer hyphens. -/
def _slug (s : String) : String :=
  let s1 := pystr.stripChars (s.data.map (fun c => if c.toNat == 160 then ' ' else c))
  String.mk (stripDashes (collapseRuns (s1.map pystr.pyLowerChar)))

end anb_board

namespace yhmc_board

/-- One `div.listing` card, post-HTML-parsing (BeautifulSoup selection and the
`fallback_location` regex are external extraction): `titleText` is the inner
text of `h3.listing-title` when that element exists, `udf` the
`extract_udf_fields` result, `fallbackLoc` the `fallback_location` result, and
`absUrl`/`slug` the `normalize_href` output for the card's link. -/
structure Card where
  titleText : Option String
  udf : List (String × String)
  fallbackLoc : Option String
  absUrl : String
  slug : String

/-- `yhmc_board.fetch_jobs` record construction (`src/scrapers/yhmc_board.py`
lines 57-82) over the parsed cards; `now` stands for
`datetime.utcnow().isoformat(timespec="seconds")`. A card is skipped only when
the title element is absent (`if not title_el: continue`); a present element's
text is stripped by `get_text(strip=True)`. -/
def fetch_jobs (now : String) (cards : List Card) : List Job :=
  cards.foldr
    (fun card acc =>
      match card.titleText with
      | none => acc
      | some raw =>
        let title := pystr.pyStrip raw
        let location :=
          (pystr.pyOr (pystr.pyOr (pyGet card.udf "hiring location") card.fallbackLoc)
            (some "")).getD ""
        let salary := (pyGet card.udf "pay").getD ""
        ([("id", utils.build_job_id card.slug title location),
          ("title", title), ("company", "Yellowhouse Machinery"),
          ("location", location), ("salary", salary), ("url", card.absUrl),
          ("scraped_at", now), ("source", "Yellowhouse")] : Job) :: acc)
    []

end yhmc_board

namespace austin_hose_scraper

/-- Austin Hose's output dict: values are `Optional[str]` (`location` and
`salary` may be `None`). -/
def AJob : Type := List (String × Option String)

instance : DecidableEq AJob := by unfold AJob; infer_instance

/-- `austin_hose_scraper.LIST_URL` (`src/scrapers/austin_hose_scraper.py`
line 17). -/
def LIST_URL : String :=
  "https://recruiting.paylocity.com/recruiting/jobs/All/0a932b3f-65a0-4207-b5be-70d84a78ecaa/Austin-Hose"

/-- `austin_hose_scraper.COMPANY` / `SOURCE` (lines 18-19). -/
def COMPANY : String := "Austin Hose"

/-- Same value as `COMPANY` in the source (line 19). -/
def SOURCE : String := "Austin Hose"

/-- `austin_hose_scraper._slug` (lines 28-30): textually identical to
`anb_board._slug`. -/
def _slug (s : String) : String := anb_board._slug s

/-- A location sub-dict of a Paylocity feed item. `none` at the dict level
models both an absent key and an empty dict, which Python truthiness treats
alike in the `or` chain and in `if not loc`. Field pairs mirror the
lower/capitalised key variants probed by the source. -/
structure FeedLoc where
  city : Option String
  cityCap : Option String
  state : Option String
  stateCap : Option String
  locationDisplayName : Option String
  locationDisplayNameCap : Option String
  name : Option String
  nameCap : Option String

/-- `_compose_location_from_feed` (lines 33-48). -/
def _compose_location_from_feed (loc : Option FeedLoc) : Option String :=
  match loc with
  | none => none
  | some l =>
    let city := pystr.pyOr l.city l.cityCap
    let state := pystr.pyOr l.state l.stateCap
    let display := pystr.pyOr (pystr.pyOr l.locationDisplayName l.locationDisplayNameCap)
      (pystr.pyOr l.name l.nameCap)
    if pystr.pyTruthy city && pystr.pyTruthy state then
      some (city.getD "" ++ ", " ++ state.getD "")
    else if pystr.pyTruthy display then display
    else none

/-- Python `a or b` over optional location dicts (a present non-empty dict is
truthy). -/
def pyOrLoc (a b : Option FeedLoc) : Option FeedLoc :=
  match a with
  | none => b
  | some _ => a

/-- One raw feed item, with the key variants the source probes. Field order:
title, Title, jobTitle, JobTitle, displayUrl, DisplayUrl, applyUrl, ApplyUrl,
listUrl, ListUrl, jobId, JobId, id, Id, jobLocation, JobLocation, location,
Location, salaryDescription, SalaryDescription, salary, Salary. -/
structure FeedItem where
  title : Option String
  titleCap : Option String
  jobTitle : Option String
  jobTitleCap : Option String
  displayUrl : Option String
  displayUrlCap : Option String
  applyUrl : Option String
  applyUrlCap : Option String
  listUrl : Option String
  listUrlCap : Option String
  jobId : Option String
  jobIdCap : Option String
  idField : Option String
  idFieldCap : Option String
  jobLocation : Option FeedLoc
  jobLocationCap : Option FeedLoc
  location : Option FeedLoc
  locationCap : Option FeedLoc
  salaryDescription : Option String
  salaryDescriptionCap : Option String
  salary : Option String
  salaryCap : Option String

/-- The per-item normalization loop of `austin_hose_scraper.fetch_jobs`
(`src/scrapers/austin_hose_scraper.py` lines 103-161) over the fetched feed
items (the HTTP feed fetch is external); `now` stands for
`_now_utc_iso_seconds()`. An item is skipped only when its title or-chain is
falsy (`if not title: continue`); no stripping is applied to the title. -/
def fetch_jobs_items (now : String) (items : List FeedItem) : List AJob :=
  items.foldr
    (fun item acc =>
      let title := pystr.pyOr (pystr.pyOr item.title item.titleCap)
        (pystr.pyOr item.jobTitle item.jobTitleCap)
      if !(pystr.pyTruthy title) then acc
      else
        let titleS := title.getD ""
        let display_url :=
          (pystr.pyOr (pystr.pyOr (pystr.pyOr item.displayUrl item.displayUrlCap)
            (pystr.pyOr item.applyUrl item.applyUrlCap))
            (pystr.pyOr (pystr.pyOr item.listUrl item.listUrlCap) (some LIST_URL))).getD ""
        let job_id_val := pystr.pyOr (pystr.pyOr item.jobId item.jobIdCap)
          (pystr.pyOr item.idField item.idFieldCap)
        let base_id :=
          if pystr.pyTruthy job_id_val then
            "austinhose-" ++ job_id_val.getD "" ++ "-" ++ titleS
          else "austinhose-" ++ titleS
        let job_id := String.mk ((_slug base_id).data.take 90)
        let loc_dict := pyOrLoc (pyOrLoc item.jobLocation item.jobLocationCap)
          (pyOrLoc (pyOrLoc item.location item.locationCap) none)
        let location := _compose_location_from_feed loc_dict
        let salary := pystr.pyOr (pystr.pyOr item.salaryDescription item.salaryDescriptionCap)
          (pystr.pyOr item.salary item.salaryCap)
        ([("id", some job_id), ("title", some titleS), ("company", some COMPANY),
          ("location", location), ("salary", salary), ("url", some display_url),
          ("scraped_at", some now), ("source", some SOURCE)] : AJob) :: acc)
    []

end austin_hose_scraper

namespace utils

/-- JSON string escaping as `json.dumps(..., ensure_ascii=False)` performs. -/
def jsonEscChar (c : Char) : List Char :=
  if c == '"' then ['\\', '"']
  else if c == '\\' then ['\\', '\\']
  else if c == '\n' then ['\\', 'n']
  else if c == '\t' then ['\\', 't']
  else if c == '\r' then ['\\', 'r']
  else if c.toNat == 8 then ['\\', 'b']
  else if c.toNat == 12 then ['\\', 'f']
  else if c.toNat < 32 then ['\\', 'u', '0', '0', hexDigit (c.toNat / 16), hexDigit (c.toNat % 16)]
  else [c]

/-- A JSON string literal. -/
def jsonStr (s : String) : String :=
  "\"" ++ String.mk ((s.data.map jsonEscChar).flatten) ++ "\""

/-- One job object as `json.dumps(..., indent=2)` renders it at array depth. -/
def jsonObj (j : Job) : String :=
  match j with
  | [] => "\x7b\x7d"
  | _ =>
    "\x7b\n" ++
      String.intercalate ",\n"
        (j.map (fun p => "    " ++ jsonStr p.1 ++ ": " ++ jsonStr p.2)) ++
      "\n  \x7d"

/-- `json.dumps(jobs, indent=2, ensure_ascii=False)` for a list of flat
string-valued job objects: one JSON array. -/
def jsonDumps (jobs : List Job) : String :=
  match jobs with
  | [] => "[]"
  | _ =>
    "[\n" ++ String.intercalate ",\n" (jobs.map (fun j => "  " ++ jsonObj j)) ++ "\n]"

/-- `utils.DATA_PATH` (`src/utils.py` line 3). -/
def DATA_PATH : String := "data/latest_jobs.json"

/-- Filesystem operations a store implementation can perform. -/
inductive FsOp where
  | truncate (path : String)
  | write (path : String) (data : String)
  | renameTo (src : String) (data : String) (dst : String)
  deriving DecidableEq

/-- `Path.write_text(data)` opens the target in mode `"w"` — truncating it in
place — and then writes the payload: two separate steps on the live path. -/
def write_text_ops (path data : String) : List FsOp :=
  [.truncate path, .write path data]

/-- `utils.save_latest` (`src/utils.py` lines 14-15) as its filesystem trace:
`DATA_PATH.write_text(json.dumps(jobs, indent=2, ensure_ascii=False))`. -/
def save_latest_ops (jobs : List Job) : List FsOp :=
  write_text_ops DATA_PATH (jsonDumps jobs)

/-- Content of the snapshot file (`none` = absent) after one operation;
`renameTo` installs the renamed file's content atomically. -/
def applyOp (c : Option String) : FsOp → Option String
  | .truncate p => if p == DATA_PATH then some "" else c
  | .write p d => if p == DATA_PATH then some (c.getD "" ++ d) else c
  | .renameTo _ d dst => if dst == DATA_PATH then some d else c

/-- Every snapshot-file state a concurrent reader can observe while a trace
executes, starting from `init` (includes initial and final states). -/
def observable (init : Option String) (ops : List FsOp) : List (Option String) :=
  ops.scanl applyOp init

/-- Write-to-temp-then-rename discipline: the live path is only ever mutated
by a rename, never truncated or written in place. -/
def atomicOnData (ops : List FsOp) : Bool :=
  ops.all
    (fun op =>
      match op with
      | .truncate p => p != DATA_PATH
      | .write p _ => p != DATA_PATH
      | .renameTo _ _ _ => true)

end utils

set_option maxRecDepth 100000

/-! ## Dictionary lemmas -/

theorem dictInsert_ne_nil {α : Type} (d : List (String × α)) (k : String) (v : α) :
    dictInsert d k v ≠ [] := by
  by_cases hc : d.any (fun q => q.1 == k) <;> simp only [dictInsert, hc]
  · cases d with
    | nil => simp at hc
    | cons p ds => simp
  · simp

theorem mem_dictInsert_pair {α : Type} {d : List (String × α)} {k i : String} {v p : α}
    (h : (i, p) ∈ dictInsert d k v) : (i, p) ∈ d ∨ (i = k ∧ p = v) := by
  unfold dictInsert at h
  by_cases hc : d.any (fun q => q.1 == k)
  · rw [if_pos hc] at h
    rw [List.mem_map] at h
    obtain ⟨q, hq, hqe⟩ := h
    by_cases hqk : q.1 == k
    · rw [if_pos hqk] at hqe
      right
      injection hqe with h1 h2
      exact ⟨h1.symm, h2.symm⟩
    · rw [if_neg hqk] at hqe
      left
      rw [hqe] at hq
      exact hq
  · rw [if_neg hc] at h
    rw [List.mem_append] at h
    rcases h with h | h
    · exact Or.inl h
    · simp at h
      exact Or.inr h

theorem dictKeys_dictInsert {α : Type} (d : List (String × α)) (k : String) (v : α) :
    dictKeys (dictInsert d k v) =
      if d.any (fun q => q.1 == k) then dictKeys d else dictKeys d ++ [k] := by
  by_cases hc : d.any (fun q => q.1 == k)
  · rw [if_pos hc]
    simp only [dictInsert, if_pos hc, dictKeys, List.map_map]
    have hmap : ∀ (l : List (String × α)),
        List.map (Prod.fst ∘ fun p => if p.1 == k then (k, v) else p) l =
          List.map Prod.fst l := by
      intro l
      induction l with
      | nil => rfl
      | cons p ds ih =>
        simp only [List.map_cons, ih]
        congr 1
        by_cases hpk : p.1 == k
        · rw [Function.comp_apply, if_pos hpk]
          exact (eq_of_beq hpk).symm
        · rw [Function.comp_apply, if_neg hpk]
    exact hmap d
  · rw [if_neg hc]
    simp [dictInsert, hc, dictKeys]

theorem not_mem_dictKeys_of_not_any {α : Type} {d : List (String × α)} {k : String}
    (hc : ¬ d.any (fun q => q.1 == k)) : k ∉ dictKeys d := by
  intro hk
  apply hc
  rw [List.any_eq_true]
  simp only [dictKeys, List.mem_map] at hk
  obtain ⟨q, hq, hqe⟩ := hk
  exact ⟨q, hq, by simp [hqe]⟩

theorem dictKeys_nodup_dictInsert {α : Type} {d : List (String × α)} (k : String) (v : α)
    (h : (dictKeys d).Nodup) : (dictKeys (dictInsert d k v)).Nodup := by
  rw [dictKeys_dictInsert]
  by_cases hc : d.any (fun q => q.1 == k)
  · rw [if_pos hc]
    exact h
  · rw [if_neg hc, List.nodup_append]
    exact ⟨h, List.nodup_singleton k, by
      intro a ha hb
      simp at hb
      rw [hb] at ha
      exact not_mem_dictKeys_of_not_any hc ha⟩

theorem mem_dictKeys_dictInsert_self {α : Type} (d : List (String × α)) (k : String) (v : α) :
    k ∈ dictKeys (dictInsert d k v) := by
  rw [dictKeys_dictInsert]
  by_cases hc : d.any (fun q => q.1 == k)
  · rw [if_pos hc]
    rw [List.any_eq_true] at hc
    obtain ⟨q, hq, hqe⟩ := hc
    simp only [dictKeys, List.mem_map]
    exact ⟨q, hq, eq_of_beq hqe⟩
  · rw [if_neg hc]
    simp

theorem mem_dictKeys_dictInsert_mono {α : Type} {d : List (String × α)} {i : String}
    (k : String) (v : α) (h : i ∈ dictKeys d) : i ∈ dictKeys (dictInsert d k v) := by
  rw [dictKeys_dictInsert]
  by_cases hc : d.any (fun q => q.1 == k)
  · rw [if_pos hc]
    exact h
  · rw [if_neg hc]
    exact List.mem_append_left _ h

/-- Two bindings of the same key in a key-nodup dict carry the same value. -/
theorem dict_value_unique {α : Type} {d : List (String × α)} {i : String} {p q : α}
    (hnd : (dictKeys d).Nodup) (hp : (i, p) ∈ d) (hq : (i, q) ∈ d) : p = q := by
  induction d with
  | nil => cases hp
  | cons r ds ih =>
    simp only [dictKeys, List.map_cons, List.nodup_cons] at hnd
    rw [List.mem_cons] at hp hq
    rcases hp with hp | hp <;> rcases hq with hq | hq
    · exact congrArg Prod.snd (hp.trans hq.symm)
    · exfalso
      apply hnd.1
      have hr : r.1 = i := by rw [← hp]
      rw [hr]
      exact List.mem_map.mpr ⟨(i, q), hq, rfl⟩
    · exfalso
      apply hnd.1
      have hr : r.1 = i := by rw [← hq]
      rw [hr]
      exact List.mem_map.mpr ⟨(i, p), hp, rfl⟩
    · exact ih hnd.2 hp hq

theorem mem_dictValues_iff {α : Type} {d : List (String × α)} {p : α} :
    p ∈ dictValues d ↔ ∃ i, (i, p) ∈ d := by
  simp only [dictValues, List.mem_map]
  constructor
  · rintro ⟨q, hq, rfl⟩
    exact ⟨q.1, by simpa using hq⟩
  · rintro ⟨i, hi⟩
    exact ⟨(i, p), hi, rfl⟩

/-! ## Lemmas about the dict comprehension of `load_previous` -/

theorem buildDictFrom_pair_mem {items : List Job} :
    ∀ {d res : List (String × Job)}, utils.buildDictFrom d items = .ok res →
      ∀ {i : String} {p : Job}, (i, p) ∈ res → (i, p) ∈ d ∨ p ∈ items := by
  induction items with
  | nil =>
    intro d res h i p hm
    injection h with h
    subst h
    exact Or.inl hm
  | cons item items ih =>
    intro d res h i p hm
    cases hid : pyGet item "id" with
    | none =>
      simp only [utils.buildDictFrom, hid] at h
      cases h
    | some j =>
      simp only [utils.buildDictFrom, hid] at h
      rcases ih h hm with hin | hin
      · rcases mem_dictInsert_pair hin with hin2 | hin2
        · exact Or.inl hin2
        · right
          rw [hin2.2]
          exact List.mem_cons_self item items
      · right
        exact List.mem_cons_of_mem item hin

theorem buildDictFrom_wf {items : List Job} :
    ∀ {d res : List (String × Job)}, utils.buildDictFrom d items = .ok res →
      (dictKeys d).Nodup → (∀ k v, (k, v) ∈ d → pyGet v "id" = some k) →
      (dictKeys res).Nodup ∧ (∀ k v, (k, v) ∈ res → pyGet v "id" = some k) := by
  induction items with
  | nil =>
    intro d res h hnd hpairs
    injection h with h
    subst h
    exact ⟨hnd, hpairs⟩
  | cons item items ih =>
    intro d res h hnd hpairs
    cases hid : pyGet item "id" with
    | none =>
      simp only [utils.buildDictFrom, hid] at h
      cases h
    | some j =>
      simp only [utils.buildDictFrom, hid] at h
      refine ih h (dictKeys_nodup_dictInsert j item hnd) ?_
      intro k v hkv
      rcases mem_dictInsert_pair hkv with hkv | hkv
      · exact hpairs k v hkv
      · rw [hkv.2, hkv.1]
        exact hid

theorem buildDictFrom_ne_nil {items : List Job} :
    ∀ {d res : List (String × Job)}, utils.buildDictFrom d items = .ok res →
      d ≠ [] → res ≠ [] := by
  induction items with
  | nil =>
    intro d res h hd
    injection h with h
    subst h
    exact hd
  | cons item items ih =>
    intro d res h hd
    cases hid : pyGet item "id" with
    | none =>
      simp only [utils.buildDictFrom, hid] at h
      cases h
    | some j =>
      refine ih ?_ (dictInsert_ne_nil d j item)
      simpa only [utils.buildDictFrom, hid] using h

theorem buildDict_ne_nil {items : List Job} {res : List (String × Job)}
    (h : utils.buildDict items = .ok res) (hne : items ≠ []) : res ≠ [] := by
  cases items with
  | nil => exact absurd rfl hne
  | cons item items =>
    cases hid : pyGet item "id" with
    | none =>
      simp only [utils.buildDict, utils.buildDictFrom, hid] at h
      cases h
    | some j =>
      exact buildDictFrom_ne_nil (by simpa only [utils.buildDict, utils.buildDictFrom, hid] using h)
        (dictInsert_ne_nil [] j item)

theorem buildDict_wf {items : List Job} {res : List (String × Job)}
    (h : utils.buildDict items = .ok res) :
    (dictKeys res).Nodup ∧ ∀ k v, (k, v) ∈ res → pyGet v "id" = some k :=
  buildDictFrom_wf h List.nodup_nil (by intro k v hkv; cases hkv)

theorem buildDict_pair_mem {items : List Job} {res : List (String × Job)}
    (h : utils.buildDict items = .ok res) {i : String} {p : Job} (hm : (i, p) ∈ res) :
    p ∈ items := by
  rcases buildDictFrom_pair_mem h hm with hin | hin
  · cases hin
  · exact hin

/-- In a list whose elements have pairwise distinct images under `f`, two
members with the same image are equal. -/
theorem pairwise_ne_mem_eq {α β : Type} {f : α → β} {l : List α} {p q : α}
    (hpw : List.Pairwise (fun a b => f a ≠ f b) l)
    (hp : p ∈ l) (hq : q ∈ l) (hf : f p = f q) : p = q := by
  induction l with
  | nil => cases hp
  | cons r rs ih =>
    rw [List.pairwise_cons] at hpw
    rw [List.mem_cons] at hp hq
    rcases hp with hp | hp <;> rcases hq with hq | hq
    · rw [hp, hq]
    · exfalso
      exact hpw.1 q hq (hp ▸ hf)
    · exfalso
      exact hpw.1 p hp (hq ▸ hf.symm)
    · exact ih hpw.2 hp hq

/-! ## Lemmas about the orchestrator loop -/

namespace run_scrapers

theorem contains_iff_mem {l : List String} {x : String} : l.contains x = true ↔ x ∈ l := by
  simp [List.contains]

theorem dedupLoop_mem {js : List Job} :
    ∀ {seen : List String} {fr : List Job}, dedupLoop seen js = .ok fr →
      ∀ j ∈ fr, j ∈ js := by
  induction js with
  | nil =>
    intro seen fr h j hj
    injection h with h
    subst h
    cases hj
  | cons a js ih =>
    intro seen fr h j hj
    cases hid : idOf a with
    | none =>
      simp only [dedupLoop, hid] at h
      cases h
    | some i =>
      simp only [dedupLoop, hid] at h
      by_cases hseen : seen.contains i
      · rw [if_pos hseen] at h
        exact List.mem_cons_of_mem a (ih h j hj)
      · rw [if_neg hseen] at h
        cases hrec : dedupLoop (i :: seen) js with
        | error e =>
          rw [hrec] at h
          cases h
        | ok rest =>
          rw [hrec] at h
          simp only [Except.map] at h
          injection h with h
          subst h
          rcases List.mem_cons.mp hj with hj | hj
          · rw [hj]
            exact List.mem_cons_self a js
          · exact List.mem_cons_of_mem a (ih hrec j hj)

theorem dedupLoop_has_id {js : List Job} :
    ∀ {seen : List String} {fr : List Job}, dedupLoop seen js = .ok fr →
      ∀ j ∈ fr, ∃ i, idOf j = some i := by
  induction js with
  | nil =>
    intro seen fr h j hj
    injection h with h
    subst h
    cases hj
  | cons a js ih =>
    intro seen fr h j hj
    cases hid : idOf a with
    | none =>
      simp only [dedupLoop, hid] at h
      cases h
    | some i =>
      simp only [dedupLoop, hid] at h
      by_cases hseen : seen.contains i
      · rw [if_pos hseen] at h
        exact ih h j hj
      · rw [if_neg hseen] at h
        cases hrec : dedupLoop (i :: seen) js with
        | error e =>
          rw [hrec] at h
          cases h
        | ok rest =>
          rw [hrec] at h
          simp only [Except.map] at h
          injection h with h
          subst h
          rcases List.mem_cons.mp hj with hj | hj
          · exact ⟨i, hj ▸ hid⟩
          · exact ih hrec j hj

theorem dedupLoop_id_not_seen {js : List Job} :
    ∀ {seen : List String} {fr : List Job}, dedupLoop seen js = .ok fr →
      ∀ j ∈ fr, ∀ i, idOf j = some i → i ∉ seen := by
  induction js with
  | nil =>
    intro seen fr h j hj
    injection h with h
    subst h
    cases hj
  | cons a js ih =>
    intro seen fr h j hj i hji
    cases hid : idOf a with
    | none =>
      simp only [dedupLoop, hid] at h
      cases h
    | some i0 =>
      simp only [dedupLoop, hid] at h
      by_cases hseen : seen.contains i0
      · rw [if_pos hseen] at h
        exact ih h j hj i hji
      · rw [if_neg hseen] at h
        cases hrec : dedupLoop (i0 :: seen) js with
        | error e =>
          rw [hrec] at h
          cases h
        | ok rest =>
          rw [hrec] at h
          simp only [Except.map] at h
          injection h with h
          subst h
          rcases List.mem_cons.mp hj with hj | hj
          · subst hj
            rw [hji] at hid
            injection hid with hid
            subst hid
            intro hmem
            exact hseen (contains_iff_mem.mpr hmem)
          · have := ih hrec j hj i hji
            intro hmem
            exact this (List.mem_cons_of_mem i0 hmem)

theorem dedupLoop_pairwise {js : List Job} :
    ∀ {seen : List String} {fr : List Job}, dedupLoop seen js = .ok fr →
      List.Pairwise (fun a b => idOf a ≠ idOf b) fr := by
  induction js with
  | nil =>
    intro seen fr h
    injection h with h
    subst h
    exact List.Pairwise.nil
  | cons a js ih =>
    intro seen fr h
    cases hid : idOf a with
    | none =>
      simp only [dedupLoop, hid] at h
      cases h
    | some i =>
      simp only [dedupLoop, hid] at h
      by_cases hseen : seen.contains i
      · rw [if_pos hseen] at h
        exact ih h
      · rw [if_neg hseen] at h
        cases hrec : dedupLoop (i :: seen) js with
        | error e =>
          rw [hrec] at h
          cases h
        | ok rest =>
          rw [hrec] at h
          simp only [Except.map] at h
          injection h with h
          subst h
          refine List.pairwise_cons.mpr ⟨?_, ih hrec⟩
          intro b hb heq
          obtain ⟨ib, hib⟩ := dedupLoop_has_id hrec b hb
          have hnb := dedupLoop_id_not_seen hrec b hb ib hib
          rw [hid, hib] at heq
          injection heq with heq
          subst heq
          exact hnb (List.mem_cons_self i seen)

theorem dedupLoop_first {l1 : List Job} :
    ∀ {seen : List String} {fr l2 : List Job} {j : Job} {i : String},
      dedupLoop seen (l1 ++ j :: l2) = .ok fr → idOf j = some i → i ∉ seen →
      (∀ jp ∈ l1, idOf jp ≠ some i) → j ∈ fr := by
  induction l1 with
  | nil =>
    intro seen fr l2 j i h hji hns _
    rw [List.nil_append] at h
    simp only [dedupLoop, hji] at h
    have hnc : ¬ seen.contains i := fun hc => hns (contains_iff_mem.mp hc)
    rw [if_neg hnc] at h
    cases hrec : dedupLoop (i :: seen) l2 with
    | error e =>
      rw [hrec] at h
      cases h
    | ok rest =>
      rw [hrec] at h
      simp only [Except.map] at h
      injection h with h
      subst h
      exact List.mem_cons_self j rest
  | cons a l1 ih =>
    intro seen fr l2 j i h hji hns hfirst
    rw [List.cons_append] at h
    cases hid : idOf a with
    | none =>
      simp only [dedupLoop, hid] at h
      cases h
    | some i0 =>
      have hne : i0 ≠ i := by
        intro he
        exact hfirst a (List.mem_cons_self a l1) (he ▸ hid)
      simp only [dedupLoop, hid] at h
      by_cases hseen : seen.contains i0
      · rw [if_pos hseen] at h
        exact ih h hji hns (fun jp hjp => hfirst jp (List.mem_cons_of_mem a hjp))
      · rw [if_neg hseen] at h
        cases hrec : dedupLoop (i0 :: seen) (l1 ++ j :: l2) with
        | error e =>
          rw [hrec] at h
          cases h
        | ok rest =>
          rw [hrec] at h
          simp only [Except.map] at h
          injection h with h
          subst h
          refine List.mem_cons_of_mem a ?_
          refine ih hrec hji ?_ (fun jp hjp => hfirst jp (List.mem_cons_of_mem a hjp))
          intro hmem
          rcases List.mem_cons.mp hmem with hmem | hmem
          · exact hne hmem.symm
          · exact hns hmem

/-! ## Lemmas about the sort -/

theorem keyed_map_snd {jobs : List Job} :
    ∀ {kl : List (String × Job)}, keyed jobs = .ok kl → kl.map Prod.snd = jobs := by
  induction jobs with
  | nil =>
    intro kl h
    injection h with h
    subst h
    rfl
  | cons j js ih =>
    intro kl h
    cases hp : pyGet j "posted" with
    | none =>
      simp only [keyed, hp] at h
      cases h
    | some p =>
      simp only [keyed, hp] at h
      cases hrec : keyed js with
      | error e =>
        rw [hrec] at h
        cases h
      | ok rest =>
        rw [hrec] at h
        simp only [Except.map] at h
        injection h with h
        subst h
        simp only [List.map_cons, ih hrec]

theorem insertDesc_perm (x : String × Job) (l : List (String × Job)) :
    (insertDesc x l).Perm (x :: l) := by
  induction l with
  | nil => exact List.Perm.refl _
  | cons y ys ih =>
    unfold insertDesc
    by_cases hc : strLt y.1 x.1
    · rw [if_pos hc]
    · rw [if_neg hc]
      exact (List.Perm.cons y ih).trans (List.Perm.swap x y ys)

theorem sortFold_perm (l : List (String × Job)) :
    ∀ acc : List (String × Job),
      (l.foldl (fun a x => insertDesc x a) acc).Perm (acc ++ l) := by
  induction l with
  | nil =>
    intro acc
    simp
  | cons x xs ih =>
    intro acc
    simp only [List.foldl_cons]
    refine ((ih (insertDesc x acc)).trans ?_)
    refine ((insertDesc_perm x acc).append_right xs).trans ?_
    simpa using List.perm_middle.symm

theorem sortDesc_perm (l : List (String × Job)) : (sortDesc l).Perm l := by
  simpa using sortFold_perm l []

theorem sortByPosted_perm {jobs out : List Job} (h : sortByPosted jobs = .ok out) :
    out.Perm jobs := by
  unfold sortByPosted at h
  cases hk : keyed jobs with
  | error e =>
    rw [hk] at h
    cases h
  | ok kl =>
    rw [hk] at h
    simp only [Except.map] at h
    injection h with h
    subst h
    exact (keyed_map_snd hk) ▸ ((sortDesc_perm kl).map Prod.snd)

/-! ## Case analysis of `main` -/

theorem mainRun_cases {prevItems scraped out : List Job} {d : List (String × Job)}
    (hd : utils.buildDict prevItems = .ok d)
    (hrun : mainRun prevItems scraped = .ok out) :
    ∃ fresh, dedupLoop (dictKeys d) scraped = .ok fresh ∧
      ((fresh = [] ∧ d ≠ []) ∧ out = prevItems ∨
        ¬ (fresh = [] ∧ d ≠ []) ∧ sortByPosted (fresh ++ dictValues d) = .ok out) := by
  unfold mainRun at hrun
  rw [hd] at hrun
  simp only [Bind.bind, Except.bind] at hrun
  cases hfr : dedupLoop (dictKeys d) scraped with
  | error e =>
    rw [hfr] at hrun
    cases hrun
  | ok fresh =>
    rw [hfr] at hrun
    simp only [Bind.bind, Except.bind] at hrun
    refine ⟨fresh, rfl, ?_⟩
    by_cases hcond : fresh ≠ [] ∨ d = []
    · rw [if_pos hcond] at hrun
      refine Or.inr ⟨?_, hrun⟩
      rintro ⟨hf, hdn⟩
      rcases hcond with hc | hc
      · exact hc hf
      · exact hdn hc
    · rw [if_neg hcond] at hrun
      injection hrun with hrun
      push_neg at hcond
      exact Or.inl ⟨⟨hcond.1, hcond.2⟩, hrun.symm⟩

end run_scrapers

/-! ## Claims -/

/-- C1: Empty-snapshot guard. When the previously persisted snapshot parses to
a non-empty job list and the adapters produce no fresh records, `main` takes
the no-save branch (`if fresh or not prev` is false), so the snapshot file
still holds the previous, non-empty content after the run. -/
theorem C1_empty_snapshot_guard (prevItems : List Job) (d : List (String × Job))
    (hne : prevItems ≠ []) (hd : utils.buildDict prevItems = .ok d) :
    run_scrapers.mainRun prevItems [] = .ok prevItems ∧ prevItems ≠ [] := by
  refine ⟨?_, hne⟩
  have hdne : d ≠ [] := buildDict_ne_nil hd hne
  unfold run_scrapers.mainRun
  rw [hd]
  simp only [Bind.bind, Except.bind, run_scrapers.dedupLoop]
  have hcond : ¬ (([] : List Job) ≠ [] ∨ d = []) := by
    rintro (hc | hc)
    · exact hc rfl
    · exact hdne hc
  rw [if_neg hcond]

/-- Witness for C1: a concrete one-record snapshot survives an empty batch. -/
theorem C1_empty_snapshot_guard_witness :
    run_scrapers.mainRun [[("id", "a"), ("posted", "2024-01-01")]] [] =
      .ok [[("id", "a"), ("posted", "2024-01-01")]] :=
  (C1_empty_snapshot_guard [[("id", "a"), ("posted", "2024-01-01")]]
    [("a", [("id", "a"), ("posted", "2024-01-01")])] (by decide) (by rfl)).1

/-- C2 counterexample: previous and fresh share id `"a"`; the run persists the
previous record and the fresh record is absent from the persisted snapshot
(the loop skips any scraped job whose id is already in `seen_ids`, which is
seeded from the previous snapshot). -/
theorem C2_counterexample :
    run_scrapers.mainRun [[("id", "a"), ("title", "Old"), ("posted", "2024-01-01")]]
        [[("id", "a"), ("title", "New"), ("posted", "2024-03-01")]] =
      .ok [[("id", "a"), ("title", "Old"), ("posted", "2024-01-01")]] ∧
    ([("id", "a"), ("title", "New"), ("posted", "2024-03-01")] : Job) ∉
      [[("id", "a"), ("title", "Old"), ("posted", "2024-01-01")]] :=
  ⟨by rfl, by decide⟩

/-- C4 (code bug): the registered scraper's records carry `scraped_at` but no
`"posted"` key, and the sort key `lambda j: j["posted"]` of `main` raises
`KeyError` on them instead of falling back to `scraped_at`; any run in which
the scraper yields a job fails at the sort. -/
theorem C4_sort_key_raises :
    (yhmc_board.fetch_jobs "2025-01-01T00:00:00"
        [⟨some "Welder", [], none, "https://careers.yhmc.com/welder", "welder"⟩]).length
      = 1 ∧
    (∀ j ∈ yhmc_board.fetch_jobs "2025-01-01T00:00:00"
        [⟨some "Welder", [], none, "https://careers.yhmc.com/welder", "welder"⟩],
      pyGet j "posted" = none ∧ pyGet j "scraped_at" = some "2025-01-01T00:00:00") ∧
    run_scrapers.mainRun []
        (yhmc_board.fetch_jobs "2025-01-01T00:00:00"
          [⟨some "Welder", [], none, "https://careers.yhmc.com/welder", "welder"⟩]) =
      .error "KeyError: posted" := by
  refine ⟨rfl, ?_, by rfl⟩
  intro j hj
  rcases List.mem_singleton.mp hj with rfl
  exact ⟨rfl, rfl⟩

/-- C5 counterexample: with the snapshot file present but not parseable,
`load_previous` propagates the exception instead of returning an empty
snapshot. -/
theorem C5_counterexample :
    utils.load_previous true (.error "JSONDecodeError: Expecting value") =
      .error "JSONDecodeError: Expecting value" ∧
    utils.load_previous true (.error "JSONDecodeError: Expecting value") ≠ .ok [] :=
  ⟨rfl, by decide⟩

/-- C5 amended: `load_previous` returns the empty snapshot only when the file
is absent; when the file exists, a read/parse exception propagates, as does
the `KeyError` for a parsed record lacking `"id"`. -/
theorem C5_load_previous_amended :
    (∀ r, utils.load_previous false r = .ok []) ∧
    (∀ e, utils.load_previous true (.error e) = .error e) ∧
    utils.load_previous true (.ok [[("title", "x")]]) = .error "KeyError: id" :=
  ⟨fun _ => rfl, fun _ => rfl, by rfl⟩

/-- Witness for C5 amended at concrete inputs. -/
theorem C5_load_previous_amended_witness :
    utils.load_previous false (.ok [[("id", "a")]]) = .ok [] ∧
    utils.load_previous true (.error "OSError") = .error "OSError" :=
  ⟨C5_load_previous_amended.1 (.ok [[("id", "a")]]), C5_load_previous_amended.2.1 "OSError"⟩

/-- C6: `build_job_id` is a pure deterministic function of the tuple; it is by
construction the sha1 hex digest of the pipe-joined `(title, company,
location)`, and on ("Welder", "Acme", "Amarillo, TX") it evaluates to the
sha1 digest of "Welder|Acme|Amarillo, TX". -/
theorem C6_content_hash_identity :
    (∀ t c l, utils.build_job_id t c l = utils.build_job_id t c l) ∧
    (∀ t c l, utils.build_job_id t c l = utils.sha1hex (utils.utf8 (utils.buildKey t c l))) ∧
    utils.build_job_id "Welder" "Acme" "Amarillo, TX" =
      "261e2894f7eec7338a6e545327f5f6f69ee84dbc" :=
  ⟨fun _ _ _ => rfl, fun _ _ _ => rfl, by decide⟩

/-- Witness for C6 at the spec's concrete tuple. -/
theorem C6_content_hash_identity_witness :
    utils.build_job_id "Welder" "Acme" "Amarillo, TX" =
      utils.sha1hex (utils.utf8 (utils.buildKey "Welder" "Acme" "Amarillo, TX")) :=
  C6_content_hash_identity.2.1 "Welder" "Acme" "Amarillo, TX"

/-- C7 counterexample: `build_job_id` hashes the raw fields with no
normalization, so two titles differing only in casing produce different ids. -/
theorem C7_counterexample :
    utils.build_job_id "Welder" "Acme" "Amarillo, TX" ≠
      utils.build_job_id "welder" "Acme" "Amarillo, TX" := by decide

/-- C8 counterexample: the pipe-joined key is not injective when a field
contains the delimiter: distinct (title, company) pairs produce the very same
key, hence the same id — not a digest collision. -/
theorem C8_counterexample :
    utils.build_job_id "a|b" "c" "Amarillo, TX" = utils.build_job_id "a" "b|c" "Amarillo, TX" ∧
    ("a|b", "c") ≠ ("a", "b|c") :=
  ⟨rfl, by decide⟩

/-- C9 counterexample: a yhmc card whose title element exists but holds only
whitespace is emitted as a job with an empty title — the pipeline checks only
element presence (`if not title_el`), not emptiness of the stripped text. -/
theorem C9_counterexample :
    (yhmc_board.fetch_jobs "2025-01-01T00:00:00"
        [⟨some "   ", [], none, "https://careers.yhmc.com/", ""⟩]).length = 1 ∧
    (yhmc_board.fetch_jobs "2025-01-01T00:00:00"
        [⟨some "   ", [], none, "https://careers.yhmc.com/", ""⟩]).head?.bind
      (fun j => pyGet j "title") = some "" :=
  ⟨rfl, rfl⟩

/-- C9 amended: yhmc drops a card only when the title element is absent — a
whitespace-only title text yields an emitted job whose title is the empty
string; austin_hose drops an item only when its title or-chain is falsy
(missing or empty string) — a whitespace-only title is truthy and emitted
verbatim. -/
theorem C9_required_field_amended :
    yhmc_board.fetch_jobs "T" [⟨none, [], none, "u", "s"⟩] = [] ∧
    (yhmc_board.fetch_jobs "T" [⟨some " ", [], none, "u", "s"⟩]).head?.bind
      (fun j => pyGet j "title") = some "" ∧
    austin_hose_scraper.fetch_jobs_items "T"
      [⟨some "", none, none, none, none, none, none, none, none, none, none,
        none, none, none, none, none, none, none, none, none, none, none⟩] = [] ∧
    (austin_hose_scraper.fetch_jobs_items "T"
      [⟨some "   ", none, none, none, none, none, none, none, none, none, none,
        none, none, none, none, none, none, none, none, none, none, none⟩]).head?.bind
      (fun j => pyGet j "title") = some (some "   ") :=
  ⟨rfl, rfl, rfl, rfl⟩

/-- C10 counterexample: `save_latest` truncates the live snapshot file in
place before writing (`Path.write_text`), so a concurrent reader can observe
the empty file — a state that is neither the previous document nor the new
one — and the trace contains no temp-file rename. -/
theorem C10_counterexample :
    utils.atomicOnData (utils.save_latest_ops [[("id", "a")]]) = false ∧
    utils.observable (some "[\n  \x7b\n    \"id\": \"z\"\n  \x7d\n]")
        (utils.save_latest_ops [[("id", "a")]]) =
      [some "[\n  \x7b\n    \"id\": \"z\"\n  \x7d\n]", some "",
        some (utils.jsonDumps [[("id", "a")]])] ∧
    ("" : String) ≠ "[\n  \x7b\n    \"id\": \"z\"\n  \x7d\n]" ∧
    ("" : String) ≠ utils.jsonDumps [[("id", "a")]] :=
  ⟨rfl, rfl, by decide, by decide⟩

/-- C10 amended: `save_latest` serializes the whole snapshot as a single JSON
array (the payload starts with `[` and is the full `json.dumps` document), but
replaces the file non-atomically: the observable states during any save are
the old content, then the empty truncated file, then the new document, and the
trace touches the live path directly rather than renaming a temp file. -/
theorem C10_save_latest_amended (jobs : List Job) (init : Option String) :
    utils.observable init (utils.save_latest_ops jobs) =
      [init, some "", some (utils.jsonDumps jobs)] ∧
    utils.atomicOnData (utils.save_latest_ops jobs) = false ∧
    (utils.jsonDumps jobs).data.head? = some '[' := by
  refine ⟨?_, rfl, ?_⟩
  · simp [utils.observable, utils.save_latest_ops, utils.write_text_ops, utils.applyOp,
      List.scanl]
  · cases jobs with
    | nil => rfl
    | cons j js =>
      simp [utils.jsonDumps, String.data_append]

/-- Witness for C10 amended at a concrete snapshot and initial state. -/
theorem C10_save_latest_amended_witness :
    utils.observable (some "x") (utils.save_latest_ops [[("id", "a")]]) =
      [some "x", some "", some (utils.jsonDumps [[("id", "a")]])] :=
  (C10_save_latest_amended [[("id", "a")]] (some "x")).1

/-- C2 amended: the persisted snapshot retains every previous record (every
value of the loaded dict); for an id bound in the previous snapshot the
previous record is the unique persisted record with that id (so for an id in
both previous and fresh, the previous — not the fresh — field values are
persisted); and the first scraped record whose id is new is included.
Hypotheses: the previous snapshot loads (`buildDict` succeeds) and carries
pairwise-distinct ids (the snapshot invariant), and the run saves
successfully. -/
theorem C2_union_preserving_amended (prevItems scraped out : List Job)
    (d : List (String × Job))
    (hd : utils.buildDict prevItems = .ok d)
    (hpw : List.Pairwise (fun a b => run_scrapers.idOf a ≠ run_scrapers.idOf b) prevItems)
    (hrun : run_scrapers.mainRun prevItems scraped = .ok out) :
    (∀ p ∈ dictValues d, p ∈ out) ∧
    (∀ i p, (i, p) ∈ d → ∀ q ∈ out, run_scrapers.idOf q = some i → q = p) ∧
    (∀ l1 l2 (j : Job) (i : String), scraped = l1 ++ j :: l2 →
      run_scrapers.idOf j = some i → i ∉ dictKeys d →
      (∀ jp ∈ l1, run_scrapers.idOf jp ≠ some i) → j ∈ out) := by
  obtain ⟨hnd, hpairs⟩ := buildDict_wf hd
  obtain ⟨fresh, hfr, hcase⟩ := run_scrapers.mainRun_cases hd hrun
  rcases hcase with ⟨⟨hfe, hdne⟩, hout⟩ | ⟨hcond, hsort⟩
  · rw [hout]
    refine ⟨?_, ?_, ?_⟩
    · intro p hp
      rw [mem_dictValues_iff] at hp
      obtain ⟨i, hip⟩ := hp
      exact buildDict_pair_mem hd hip
    · intro i p hip q hq hqi
      have hpmem : p ∈ prevItems := buildDict_pair_mem hd hip
      have hpid : run_scrapers.idOf p = some i := hpairs i p hip
      exact pairwise_ne_mem_eq hpw hq hpmem (hqi.trans hpid.symm)
    · intro l1 l2 j i hs hji hni hfirst
      exfalso
      rw [hs] at hfr
      have hj : j ∈ fresh := run_scrapers.dedupLoop_first hfr hji hni hfirst
      rw [hfe] at hj
      cases hj
  · have hperm : out.Perm (fresh ++ dictValues d) := run_scrapers.sortByPosted_perm hsort
    refine ⟨?_, ?_, ?_⟩
    · intro p hp
      exact hperm.mem_iff.mpr (List.mem_append_right fresh hp)
    · intro i p hip q hq hqi
      rcases List.mem_append.mp (hperm.mem_iff.mp hq) with hq2 | hq2
      · exfalso
        apply run_scrapers.dedupLoop_id_not_seen hfr q hq2 i hqi
        exact List.mem_map.mpr ⟨(i, p), hip, rfl⟩
      · rw [mem_dictValues_iff] at hq2
        obtain ⟨k, hkq⟩ := hq2
        have hk : run_scrapers.idOf q = some k := hpairs k q hkq
        rw [hqi] at hk
        injection hk with hk
        subst hk
        exact dict_value_unique hnd hkq hip
    · intro l1 l2 j i hs hji hni hfirst
      rw [hs] at hfr
      have hj : j ∈ fresh := run_scrapers.dedupLoop_first hfr hji hni hfirst
      exact hperm.mem_iff.mpr (List.mem_append_left _ hj)

/-- Witness for C2 amended: previous record with id "a" is retained, the fresh
record with the fresh id "b" is included, and the only persisted record with
id "a" is the previous one. -/
theorem C2_union_preserving_amended_witness :
    ([("id", "a"), ("posted", "2024-01-01")] : Job) ∈
      [[("id", "b"), ("posted", "2024-02-01")], [("id", "a"), ("posted", "2024-01-01")]] ∧
    ([("id", "b"), ("posted", "2024-02-01")] : Job) ∈
      [[("id", "b"), ("posted", "2024-02-01")], [("id", "a"), ("posted", "2024-01-01")]] := by
  have h := C2_union_preserving_amended
    [[("id", "a"), ("posted", "2024-01-01")]]
    [[("id", "b"), ("posted", "2024-02-01")]]
    [[("id", "b"), ("posted", "2024-02-01")], [("id", "a"), ("posted", "2024-01-01")]]
    [("a", [("id", "a"), ("posted", "2024-01-01")])]
    (by rfl) (by simp) (by rfl)
  refine ⟨h.1 [("id", "a"), ("posted", "2024-01-01")] (by decide), ?_⟩
  exact h.2.2 [] [] [("id", "b"), ("posted", "2024-02-01")] "b" rfl rfl (by decide)
    (by intro jp hjp; cases hjp)

/-- C3 amended: within a scraped batch, when several records share an id that
is not already in the previous snapshot, exactly one record with that id is
persisted and it is the earliest-produced one (the loop keeps the first and
skips the rest); later duplicates are discarded whole. -/
theorem C3_duplicate_collapse_amended (prevItems scraped out l1 l2 : List Job)
    (j : Job) (i : String) (d : List (String × Job))
    (hd : utils.buildDict prevItems = .ok d)
    (hs : scraped = l1 ++ j :: l2)
    (hji : run_scrapers.idOf j = some i)
    (hni : i ∉ dictKeys d)
    (hfirst : ∀ jp ∈ l1, run_scrapers.idOf jp ≠ some i)
    (hrun : run_scrapers.mainRun prevItems scraped = .ok out) :
    j ∈ out ∧ ∀ q ∈ out, run_scrapers.idOf q = some i → q = j := by
  obtain ⟨hnd, hpairs⟩ := buildDict_wf hd
  obtain ⟨fresh, hfr, hcase⟩ := run_scrapers.mainRun_cases hd hrun
  rw [hs] at hfr
  have hjf : j ∈ fresh := run_scrapers.dedupLoop_first hfr hji hni hfirst
  rcases hcase with ⟨⟨hfe, _⟩, _⟩ | ⟨_, hsort⟩
  · rw [hfe] at hjf
    cases hjf
  · have hperm : out.Perm (fresh ++ dictValues d) := run_scrapers.sortByPosted_perm hsort
    constructor
    · exact hperm.mem_iff.mpr (List.mem_append_left _ hjf)
    · intro q hq hqi
      rcases List.mem_append.mp (hperm.mem_iff.mp hq) with hq2 | hq2
      · exact pairwise_ne_mem_eq (run_scrapers.dedupLoop_pairwise hfr) hq2 hjf
          (hqi.trans hji.symm)
      · exfalso
        rw [mem_dictValues_iff] at hq2
        obtain ⟨k, hkq⟩ := hq2
        have hk : run_scrapers.idOf q = some k := hpairs k q hkq
        rw [hqi] at hk
        injection hk with hk
        subst hk
        exact hni (List.mem_map.mpr ⟨(i, q), hkq, rfl⟩)

/-- Witness for C3 amended: of two scraped records sharing id "a", the earlier
one is persisted. -/
theorem C3_duplicate_collapse_amended_witness :
    ([("id", "a"), ("title", "first"), ("posted", "2024-01-01")] : Job) ∈
      [[("id", "a"), ("title", "first"), ("posted", "2024-01-01")]] :=
  (C3_duplicate_collapse_amended []
    [[("id", "a"), ("title", "first"), ("posted", "2024-01-01")],
      [("id", "a"), ("title", "second"), ("posted", "2024-02-01")]]
    [[("id", "a"), ("title", "first"), ("posted", "2024-01-01")]]
    []
    [[("id", "a"), ("title", "second"), ("posted", "2024-02-01")]]
    [("id", "a"), ("title", "first"), ("posted", "2024-01-01")]
    "a" [] (by rfl) rfl (by rfl) (by decide) (by intro jp hjp; cases hjp) (by rfl)).1

/-- C3 counterexample: with two fresh records sharing id "a", the persisted
snapshot holds the earlier-produced record and the later one is absent — the
opposite of the claimed later-wins rule. -/
theorem C3_counterexample :
    run_scrapers.mainRun []
        [[("id", "a"), ("title", "first"), ("posted", "2024-01-01")],
          [("id", "a"), ("title", "second"), ("posted", "2024-02-01")]] =
      .ok [[("id", "a"), ("title", "first"), ("posted", "2024-01-01")]] ∧
    ([("id", "a"), ("title", "second"), ("posted", "2024-02-01")] : Job) ∉
      [[("id", "a"), ("title", "first"), ("posted", "2024-01-01")]] :=
  ⟨by rfl, by decide⟩

/-! ## Helper lemmas for C7 and C8 -/

theorem append_pipe_inj {b : List Char} :
    ∀ {a c d : List Char}, '|' ∉ a → '|' ∉ c →
      a ++ '|' :: b = c ++ '|' :: d → a = c ∧ b = d := by
  intro a
  induction a with
  | nil =>
    intro c d _ hc h
    cases c with
    | nil =>
      rw [List.nil_append, List.nil_append] at h
      injection h with _ h
      exact ⟨rfl, h⟩
    | cons x cs =>
      rw [List.nil_append, List.cons_append] at h
      injection h with h1 _
      exfalso
      exact hc (h1 ▸ List.mem_cons_self x cs)
  | cons x as ih =>
    intro c d ha hc h
    cases c with
    | nil =>
      rw [List.cons_append, List.nil_append] at h
      injection h with h1 _
      exfalso
      exact ha (h1.symm ▸ List.mem_cons_self x as)
    | cons y cs =>
      rw [List.cons_append, List.cons_append] at h
      injection h with h1 h2
      have hrec := ih (fun hm => ha (List.mem_cons_of_mem x hm))
        (fun hm => hc (List.mem_cons_of_mem y hm)) h2
      exact ⟨by rw [h1, hrec.1], hrec.2⟩

theorem buildKey_data (t c l : String) :
    (utils.buildKey t c l).data = t.data ++ '|' :: (c.data ++ '|' :: l.data) := by
  simp [utils.buildKey, String.data_append]

/-- C8 amended: distinct `(title, company, location)` triples yield distinct
hash keys — hence distinct ids barring genuine sha1 collisions — provided the
title and company contain no `'|'` delimiter; a field containing the delimiter
can produce the very same key for distinct triples (see the counterexample). -/
theorem C8_uniqueness_amended (t1 c1 l1 t2 c2 l2 : String)
    (ht1 : '|' ∉ t1.data) (hc1 : '|' ∉ c1.data)
    (ht2 : '|' ∉ t2.data) (hc2 : '|' ∉ c2.data)
    (h : utils.buildKey t1 c1 l1 = utils.buildKey t2 c2 l2) :
    t1 = t2 ∧ c1 = c2 ∧ l1 = l2 := by
  have hdata := congrArg String.data h
  rw [buildKey_data, buildKey_data] at hdata
  obtain ⟨h1, hrest⟩ := append_pipe_inj ht1 ht2 hdata
  obtain ⟨h2, h3⟩ := append_pipe_inj hc1 hc2 hrest
  exact ⟨String.ext h1, String.ext h2, String.ext h3⟩

/-- Witness for C8 amended at a concrete pipe-free tuple. -/
theorem C8_uniqueness_amended_witness :
    ("Welder" : String) = "Welder" ∧ ("Acme" : String) = "Acme" ∧
      ("Amarillo, TX" : String) = "Amarillo, TX" :=
  C8_uniqueness_amended "Welder" "Acme" "Amarillo, TX" "Welder" "Acme" "Amarillo, TX"
    (by decide) (by decide) (by decide) (by decide) rfl

theorem char_toNat_ofNat {n : Nat} (h : n.isValidChar) : (Char.ofNat n).toNat = n := by
  simp only [Char.ofNat, h, dif_pos]
  rfl

theorem pyLowerChar_toNat (c : Char) :
    (pystr.pyLowerChar c).toNat =
      if 65 ≤ c.toNat ∧ c.toNat ≤ 90 then c.toNat + 32 else c.toNat := by
  unfold pystr.pyLowerChar
  by_cases h : 65 ≤ c.toNat ∧ c.toNat ≤ 90
  · rw [if_pos h]
    have hb : (65 ≤ c.toNat && c.toNat ≤ 90) = true := by
      simp [h.1, h.2]
    rw [if_pos hb]
    exact char_toNat_ofNat (Or.inl (by omega))
  · rw [if_neg h]
    have hb : ¬ (65 ≤ c.toNat && c.toNat ≤ 90) = true := by
      simp only [Bool.and_eq_true, decide_eq_true_eq]
      exact fun hx => h ⟨hx.1, hx.2⟩
    rw [if_neg hb]

theorem isPySpace_lower (c : Char) :
    pystr.isPySpace (pystr.pyLowerChar c) = pystr.isPySpace c := by
  have ht := pyLowerChar_toNat c
  by_cases h : 65 ≤ c.toNat ∧ c.toNat ≤ 90
  · rw [if_pos h] at ht
    simp only [pystr.isPySpace, ht]
    have h1 : ∀ m : Nat, 33 ≤ m → m ≤ 132 →
        ([9, 10, 11, 12, 13, 28, 29, 30, 31, 32, 133, 160].contains m) = false := by
      intro m hm1 hm2
      simp only [List.contains, List.elem_eq_mem, decide_eq_false_iff_not]
      intro hmem
      fin_cases hmem <;> omega
    rw [h1 _ (by omega) (by omega), h1 _ (by omega) (by omega)]
  · rw [if_neg h] at ht
    simp only [pystr.isPySpace, ht]

theorem dropWhile_map_lower (l : List Char) :
    (l.map pystr.pyLowerChar).dropWhile pystr.isPySpace =
      (l.dropWhile pystr.isPySpace).map pystr.pyLowerChar := by
  induction l with
  | nil => rfl
  | cons c cs ih =>
    simp only [List.map_cons, List.dropWhile]
    rw [isPySpace_lower]
    by_cases hc : pystr.isPySpace c
    · simp [hc, ih]
    · simp [hc]

theorem stripChars_map_lower (w : List Char) :
    pystr.stripChars (w.map pystr.pyLowerChar) =
      (pystr.stripChars w).map pystr.pyLowerChar := by
  unfold pystr.stripChars
  rw [dropWhile_map_lower, ← List.map_reverse, dropWhile_map_lower, ← List.map_reverse]

theorem pyLowerChar_nbsp (c : Char) :
    pystr.pyLowerChar (if c.toNat == 160 then ' ' else c) =
      (if (pystr.pyLowerChar c).toNat == 160 then ' ' else pystr.pyLowerChar c) := by
  have ht := pyLowerChar_toNat c
  by_cases h160 : c.toNat = 160
  · have hnl : pystr.pyLowerChar c = c := by
      unfold pystr.pyLowerChar
      rw [if_neg (by simp [h160])]
    rw [if_pos (by simp [h160]), hnl, if_pos (by simp [h160])]
    rfl
  · rw [if_neg (by simp [h160])]
    by_cases h : 65 ≤ c.toNat ∧ c.toNat ≤ 90
    · rw [if_pos h] at ht
      rw [if_neg (by simp only [ht, beq_iff_eq]; omega)]
    · rw [if_neg h] at ht
      rw [if_neg (by simp only [ht, beq_iff_eq]; omega)]

theorem map_lower_nbsp (u : List Char) :
    (u.map (fun c => if c.toNat == 160 then ' ' else c)).map pystr.pyLowerChar =
      (u.map pystr.pyLowerChar).map (fun c => if c.toNat == 160 then ' ' else c) := by
  rw [List.map_map, List.map_map]
  induction u with
  | nil => rfl
  | cons c cs ih =>
    simp only [List.map_cons, ih]
    rw [Function.comp_apply, Function.comp_apply, pyLowerChar_nbsp]

/-- C7 amended: the hash path performs no normalization — titles differing
only in whitespace (or casing, see the counterexample) produce different ids —
while the slug helper `_slug` does normalize: it case-folds (ids agree for any
two strings equal after character-wise lowering) and collapses
whitespace/punctuation runs, so cosmetic variants produce the same slug. -/
theorem C7_cosmetic_identity_amended :
    (∀ s t : String, s.data.map pystr.pyLowerChar = t.data.map pystr.pyLowerChar →
      anb_board._slug s = anb_board._slug t) ∧
    anb_board._slug " WELDER  Fitter " = anb_board._slug "Welder Fitter" ∧
    utils.build_job_id " Welder " "Acme" "Amarillo, TX" ≠
      utils.build_job_id "Welder" "Acme" "Amarillo, TX" := by
  refine ⟨?_, by rfl, by decide⟩
  intro s t h
  have key : ∀ u : List Char,
      (pystr.stripChars (u.map (fun c => if c.toNat == 160 then ' ' else c))).map
          pystr.pyLowerChar =
        pystr.stripChars ((u.map pystr.pyLowerChar).map
          (fun c => if c.toNat == 160 then ' ' else c)) := by
    intro u
    rw [← stripChars_map_lower, map_lower_nbsp]
  simp only [anb_board._slug]
  rw [key s.data, key t.data, h]

/-- Witness for C7 amended: two titles equal after lowering get one slug. -/
theorem C7_cosmetic_identity_amended_witness :
    anb_board._slug "Sr. Welder" = anb_board._slug "SR. WELDER" :=
  C7_cosmetic_identity_amended.1 "Sr. Welder" "SR. WELDER" (by decide)
